import Mathlib

/-!
Shallow embedding of the remiges-tech/autocomplete repository core:
the Redis provider (tokenization, composite-key encoding, range-query
planning, index mutation, result assembly) and the caller-facing
validation layer (autocompleteImpl).

Go strings are byte sequences; all tokenization in the source slices
strings by byte index.  We therefore model text as `List Nat` (one Nat
per byte).  `strings.ToLower` is modelled on the ASCII range (bytes
65..90 map to 97..122); bytes outside that range - in particular UTF-8
continuation bytes - are left unchanged, exactly as Go leaves them for
the inputs exercised here.

The Redis sorted set holding the token index is modelled as a
lexicographically sorted, duplicate-free `List` of members (all entries
are written with a constant score, so ZRANGEBYLEX order is pure
lexicographic member order).  Hash tables (text/display/metadata) are
association lists.  `ZRangeByLex` with bounds "[q" / "[q\xff" is an
inclusive range scan limited to `Count` elements.  Scores are omitted
from the model: the provider writes a constant caller score and always
returns Score 1.0, and no control flow inspects scores.

`Provider.Query` returns, besides the results, the list of range-scan
lower bounds it issued, so that statements about "no backend scan" can
be made.  Go `int` values that are only ever non-negative on the
modelled paths are represented as `Nat`; the caller-facing limits keep
Go's signed `int` semantics via `Int`.
-/

namespace Autocomplete

/-- A Go string, as its byte sequence. -/
abbrev Str := List Nat

/-- The composite-key separator byte, ASCII colon. -/
def sepByte : Nat := 58

/-- lexicographicMaxChar: the byte appended for the ZRANGEBYLEX upper bound ("\xff"). -/
def lexicographicMaxChar : Nat := 255

/-- defaultNGramSize from the source. -/
def defaultNGramSize : Nat := 3

/-- resultMultiplierForDuplicates from the source. -/
def resultMultiplierForDuplicates : Nat := 10

/-- resultMultiplierForIntersection from the source. -/
def resultMultiplierForIntersection : Nat := 20

/-- minMemberPartsForID from the source. -/
def minMemberPartsForID : Nat := 2

/-- minMemberPartsForPositionalID from the source. -/
def minMemberPartsForPositionalID : Nat := 3

/-- providers.MatchStrategy. -/
inductive MatchStrategy where
  | MatchPrefix
  | MatchNGram
  | MatchNOrMoreGram
  | MatchSubstring
deriving DecidableEq, Repr

/-- ASCII byte lowercasing, as Go strings.ToLower acts on ASCII bytes. -/
def toLowerByte (b : Nat) : Nat := if 65 ≤ b ∧ b ≤ 90 then b + 32 else b

/-- strings.ToLower on the modelled byte strings. -/
def toLowerStr (s : Str) : Str := s.map toLowerByte

/-- Byte-wise lexicographic order on members (the ZRANGEBYLEX member order). -/
def lexLe : Str → Str → Bool
  | [], _ => true
  | _ :: _, [] => false
  | a :: as, b :: bs => if a < b then true else if b < a then false else lexLe as bs

/-- ZAdd into the sorted-set model: ordered insert, deduplicating. -/
def zadd (store : List Str) (m : Str) : List Str :=
  match store with
  | [] => [m]
  | x :: xs =>
    if lexLe m x then (if m = x then x :: xs else m :: x :: xs)
    else x :: zadd xs m

/-- ZRem from the sorted-set model. -/
def zrem (store : List Str) (m : Str) : List Str :=
  store.filter (fun x => decide (x ≠ m))

/-- ZRangeByLex with inclusive bounds and a Count limit (Offset is always 0 in the source). -/
def zrangebylex (store : List Str) (lo hi : Str) (count : Nat) : List Str :=
  (store.filter (fun m => lexLe lo m && lexLe m hi)).take count

/-- HSet on an association-list hash table. -/
def hset (tbl : List (Str × Str)) (k v : Str) : List (Str × Str) :=
  (k, v) :: tbl.filter (fun p => decide (p.fst ≠ k))

/-- HDel on an association-list hash table. -/
def hdel (tbl : List (Str × Str)) (k : Str) : List (Str × Str) :=
  tbl.filter (fun p => decide (p.fst ≠ k))

/-- HGet on an association-list hash table. -/
def hget (tbl : List (Str × Str)) (k : Str) : Option Str :=
  (tbl.find? (fun p => p.fst = k)).map Prod.snd

/-- createLexicographicStartKey: "[q" denotes the inclusive lower bound q. -/
def createLexicographicStartKey (query : Str) : Str := query

/-- createLexicographicEndKey: "[q\xff" denotes the inclusive upper bound q ++ [0xff]. -/
def createLexicographicEndKey (query : Str) : Str := query ++ [lexicographicMaxChar]

/-- getNGramSizeOrDefault from the source (Go int argument). -/
def getNGramSizeOrDefault (size : Int) : Nat :=
  if size ≤ 0 then defaultNGramSize else size.toNat

/-- createPrefixMember: token:id. -/
def createPrefixMember (pfx id : Str) : Str := pfx ++ sepByte :: id

/-- Decimal ASCII digits of a number, least significant first, with explicit
fuel for structural recursion (fuel n always suffices for the number n). -/
def natDecimalAux : Nat → Nat → List Nat
  | 0, _ => []
  | _ + 1, 0 => []
  | fuel + 1, n + 1 => (48 + (n + 1) % 10) :: natDecimalAux fuel ((n + 1) / 10)

/-- Decimal ASCII rendering of a Nat, as fmt's %d produces. -/
def natDecimal (n : Nat) : Str :=
  if n = 0 then [48] else (natDecimalAux n n).reverse

/-- createPositionalMember: token:id:position. -/
def createPositionalMember (text id : Str) (position : Nat) : Str :=
  text ++ sepByte :: (id ++ sepByte :: natDecimal position)

/-- The prefix members written by Index under MatchPrefix (and removed by
removePrefixMembers): one per non-empty byte prefix of the text. -/
def allPrefixMembers (text id : Str) : List Str :=
  (List.range text.length).map (fun i => createPrefixMember (text.take (i + 1)) id)

/-- The positional members for every contiguous non-empty byte substring of the
text, tagged with its start offset: the member set written by Index under
MatchSubstring, and the removal set of removePositionalMembers. -/
def allSubstringMembers (text id : Str) : List Str :=
  ((List.range text.length).map (fun start =>
    (List.range (text.length - start)).map (fun k =>
      createPositionalMember ((text.drop start).take (k + 1)) id start))).flatten

/-- The member set Provider.Index writes for a given normalized text, per
strategy, mirroring the four loops in the source switch statement.  Loops of
the form `for i := 0; i <= len(t)-n; i++` over Go ints run `len(t)+1-n` times
when that is non-negative and zero times otherwise, which Nat subtraction in
List.range reproduces. -/
def indexMembers (textToIndex id : Str) (strategy : MatchStrategy) (nGramSize : Int) : List Str :=
  match strategy with
  | .MatchPrefix => allPrefixMembers textToIndex id
  | .MatchNGram =>
    let n := getNGramSizeOrDefault nGramSize
    (List.range (textToIndex.length + 1 - n)).map
      (fun i => createPositionalMember ((textToIndex.drop i).take n) id i)
  | .MatchNOrMoreGram =>
    let n := getNGramSizeOrDefault nGramSize
    ((List.range textToIndex.length).map (fun start =>
      (List.range (textToIndex.length + 1 - (start + n))).map (fun k =>
        createPositionalMember ((textToIndex.drop start).take (n + k)) id start))).flatten
  | .MatchSubstring => allSubstringMembers textToIndex id

/-- providers.IndexOptions (Score omitted: constant, never inspected). -/
structure IndexOptions where
  matchStrategy : MatchStrategy
  nGramSize : Int
  caseSensitive : Bool
deriving DecidableEq, Repr

/-- providers.QueryOptions, the fields the Redis provider reads.  MaxResults is
only ever a positive int on the modelled paths, hence Nat. -/
structure QueryOptions where
  maxResults : Nat
  caseSensitive : Bool
  matchStrategy : MatchStrategy
  nGramSize : Int
deriving DecidableEq, Repr

/-- The per-namespace Redis state: the token sorted set and the three hash
tables (ac:set: / ac:text: / ac:display: / ac:meta: under one namespace key). -/
structure RedisState where
  tokenIndex : List Str
  textTbl : List (Str × Str)
  displayTbl : List (Str × Str)
  metaTbl : List (Str × Str)
deriving DecidableEq, Repr

/-- The empty namespace state. -/
def emptyState : RedisState := ⟨[], [], [], []⟩

/-- Provider.Index: tokenize per strategy and case flag, ZAdd every member,
then overwrite the text, display and case-sensitivity metadata records. -/
def Provider.Index (s : RedisState) (id text display : Str) (options : IndexOptions) : RedisState :=
  let textToIndex := if options.caseSensitive then text else toLowerStr text
  { tokenIndex := (indexMembers textToIndex id options.matchStrategy options.nGramSize).foldl zadd s.tokenIndex
    textTbl := hset s.textTbl id text
    displayTbl := hset s.displayTbl id display
    metaTbl := if options.caseSensitive then hset s.metaTbl id [49] else hdel s.metaTbl id }

/-- strings.Split(member, ":") on byte strings. -/
def splitOnSep : Str → List Str
  | [] => [[]]
  | b :: rest =>
    if b = sepByte then [] :: splitOnSep rest
    else
      match splitOnSep rest with
      | t :: ts => (b :: t) :: ts
      | [] => [[b]]

/-- extractIDFromMember: parts[1] when the member has at least minParts fields,
the empty string otherwise.  Callers pass minParts 2 or 3, so parts[1] exists
whenever the length test passes. -/
def extractIDFromMember (member : Str) (minParts : Nat) : Str :=
  let parts := splitOnSep member
  if minParts ≤ parts.length then parts.getD 1 [] else []

/-- One step of extractIDsFromResults: insert the decoded id of one member
into the id set when the id is non-empty (Go map insertion, deduplicating). -/
def addDecodedID (minParts : Nat) (idSet : List Str) (r : Str) : List Str :=
  if extractIDFromMember r minParts ≠ [] ∧ extractIDFromMember r minParts ∉ idSet then
    idSet ++ [extractIDFromMember r minParts]
  else idSet

/-- extractIDsFromResults: the id set decoded from one scan (the Go map is
modelled as a first-seen-order duplicate-free list). -/
def extractIDsFromResults (results : List Str) (minParts : Nat) : List Str :=
  results.foldl (addDecodedID minParts) []

/-- isEmptySet from the source. -/
def isEmptySet (set : List Str) : Bool := set.isEmpty

/-- limitResults from the source. -/
def limitResults (ids : List Str) (maxResults : Nat) : List Str :=
  ids.take maxResults

/-- intersectIDSets: ids of the first set that appear in every remaining set
(the Go map-based copy/remove/extract sequence, determinized to the first
set's order). -/
def intersectIDSets : List (List Str) → List Str
  | [] => []
  | s :: rest => s.filter (fun id => decide (∀ t ∈ rest, id ∈ t))

/-- getMinPartsForStrategy from the source. -/
def getMinPartsForStrategy (strategy : MatchStrategy) : Nat :=
  if strategy = .MatchPrefix then minMemberPartsForID else minMemberPartsForPositionalID

/-- The collection loop of extractUniqueIDsFromResults: append each new
non-empty decoded id in scan order and break once maxResults ids are held. -/
def extractUniqueIDsLoop (maxResults minParts : Nat) : List Str → List Str → List Str
  | [], ids => ids
  | r :: rs, ids =>
    if extractIDFromMember r minParts ≠ [] ∧ extractIDFromMember r minParts ∉ ids then
      if maxResults ≤ (ids ++ [extractIDFromMember r minParts]).length then
        ids ++ [extractIDFromMember r minParts]
      else extractUniqueIDsLoop maxResults minParts rs (ids ++ [extractIDFromMember r minParts])
    else extractUniqueIDsLoop maxResults minParts rs ids

/-- extractUniqueIDsFromResults from the source. -/
def extractUniqueIDsFromResults (results : List Str) (options : QueryOptions) : List Str :=
  extractUniqueIDsLoop options.maxResults (getMinPartsForStrategy options.matchStrategy) results []

/-- fetchProviderResults: HMGet the display texts and silently drop ids whose
display record is missing.  Each result carries Score 1.0 in the source, a
constant, so a result is modelled as the (id, display) pair. -/
def fetchProviderResults (s : RedisState) (ids : List Str) : List (Str × Str) :=
  ids.filterMap (fun id => (hget s.displayTbl id).map (fun d => (id, d)))

/-- The length-n byte windows of the query, in order of start offset. -/
def windowsOf (q : Str) (n : Nat) : List Str :=
  (List.range (q.length + 1 - n)).map (fun i => (q.drop i).take n)

/-- The id set one sliding-window scan contributes: range scan on the window
with the intersection Count multiplier, decoded with the positional minimum
field count. -/
def windowSet (store : List Str) (count : Nat) (w : Str) : List Str :=
  extractIDsFromResults
    (zrangebylex store (createLexicographicStartKey w) (createLexicographicEndKey w) count)
    minMemberPartsForPositionalID

/-- The accumulation loop of queryNGramSlidingWindow: one scan per window,
aborting with none (the empty-result early return) when a window set is empty. -/
def collectNGramSets (store : List Str) (count : Nat) : List Str → Option (List (List Str))
  | [] => some []
  | w :: ws =>
    if isEmptySet (windowSet store count w) then none
    else (collectNGramSets store count ws).map (fun sets => windowSet store count w :: sets)

/-- queryNGramSlidingWindow from the source. -/
def queryNGramSlidingWindow (s : RedisState) (searchQuery : Str) (n : Nat)
    (options : QueryOptions) : List (Str × Str) :=
  match collectNGramSets s.tokenIndex (options.maxResults * resultMultiplierForIntersection)
      (windowsOf searchQuery n) with
  | none => []
  | some ngramSets =>
    fetchProviderResults s (limitResults (intersectIDSets ngramSets) options.maxResults)

/-- Provider.Query.  Besides the provider results, returns the list of range
scans issued (each as the scanned token), so that short-circuit paths are
visibly scan-free.  The guard chain mirrors the source: the MatchNGram block
(empty query, then sliding window for queries longer than n), the
MatchNOrMoreGram short-query block, then the shared single range scan. -/
def Provider.Query (s : RedisState) (query : Str) (options : QueryOptions) :
    List (Str × Str) × List Str :=
  let searchQuery := if options.caseSensitive then query else toLowerStr query
  if options.matchStrategy = .MatchNGram ∧ searchQuery.length < 1 then ([], [])
  else if options.matchStrategy = .MatchNGram ∧
      getNGramSizeOrDefault options.nGramSize < searchQuery.length then
    (queryNGramSlidingWindow s searchQuery (getNGramSizeOrDefault options.nGramSize) options,
     windowsOf searchQuery (getNGramSizeOrDefault options.nGramSize))
  else if options.matchStrategy = .MatchNOrMoreGram ∧
      searchQuery.length < getNGramSizeOrDefault options.nGramSize then ([], [])
  else
    let scan := zrangebylex s.tokenIndex (createLexicographicStartKey searchQuery)
      (createLexicographicEndKey searchQuery)
      (options.maxResults * resultMultiplierForDuplicates)
    (fetchProviderResults s (extractUniqueIDsFromResults scan options), [searchQuery])

/-- removePrefixMembers: ZRem every prefix member of the text for this id. -/
def removePrefixMembers (store : List Str) (text id : Str) : List Str :=
  (allPrefixMembers text id).foldl zrem store

/-- removePositionalMembers: ZRem every positional substring member of the
text for this id. -/
def removePositionalMembers (store : List Str) (text id : Str) : List Str :=
  (allSubstringMembers text id).foldl zrem store

/-- Provider.Delete: read back the stored text and case flag, remove every
prefix and positional member recomputed from them, then delete the text,
display and metadata records.  A missing text record reads as the empty
string, skipping member removal. -/
def Provider.Delete (s : RedisState) (id : Str) : RedisState :=
  let text := (hget s.textTbl id).getD []
  let tokenIndex2 :=
    if text ≠ [] then
      let textToDelete := if hget s.metaTbl id = some [49] then text else toLowerStr text
      removePositionalMembers (removePrefixMembers s.tokenIndex textToDelete id) textToDelete id
    else s.tokenIndex
  { tokenIndex := tokenIndex2
    textTbl := hdel s.textTbl id
    displayTbl := hdel s.displayTbl id
    metaTbl := hdel s.metaTbl id }

/-- The sentinel validation errors of the caller-facing package. -/
inductive ACError where
  | ErrEmptyID
  | ErrEmptyText
  | ErrEmptyDisplay
  | ErrQueryTooShort
  | ErrLimitExceeded
deriving DecidableEq, Repr

instance {ε α : Type} [DecidableEq ε] [DecidableEq α] : DecidableEq (Except ε α) := fun a b =>
  match a, b with
  | .ok x, .ok y => decidable_of_iff (x = y) (by simp)
  | .error x, .error y => decidable_of_iff (x = y) (by simp)
  | .ok _, .error _ => isFalse (fun h => Except.noConfusion h)
  | .error _, .ok _ => isFalse (fun h => Except.noConfusion h)

/-- autocomplete.Options, the fields the validation layer reads. -/
structure Options where
  defaultLimit : Int
  maxLimit : Int
  caseSensitive : Bool
  minPrefixLength : Int
  matchStrategy : MatchStrategy
  nGramSize : Int
deriving DecidableEq, Repr

/-- autocompleteImpl.Index: validate non-empty id/text/display before any
provider call; an error therefore leaves the state untouched. -/
def autocompleteImpl.Index (cfg : Options) (s : RedisState) (id text display : Str) :
    Except ACError RedisState :=
  if id = [] then .error .ErrEmptyID
  else if text = [] then .error .ErrEmptyText
  else if display = [] then .error .ErrEmptyDisplay
  else .ok (Provider.Index s id text display ⟨cfg.matchStrategy, cfg.nGramSize, cfg.caseSensitive⟩)

/-- autocompleteImpl.Query: byte-length minimum check and limit cap before any
provider call (limit 0 or negative selects the default limit first). -/
def autocompleteImpl.Query (cfg : Options) (s : RedisState) (query : Str) (limit : Int) :
    Except ACError (List (Str × Str) × List Str) :=
  if (query.length : Int) < cfg.minPrefixLength then .error .ErrQueryTooShort
  else
    let limit2 := if limit ≤ 0 then cfg.defaultLimit else limit
    if cfg.maxLimit < limit2 then .error .ErrLimitExceeded
    else .ok (Provider.Query s query ⟨limit2.toNat, cfg.caseSensitive, cfg.matchStrategy, cfg.nGramSize⟩)

/-- Whether a byte is a UTF-8 continuation byte (0x80..0xBF): such a byte can
never start a well-formed encoded character. -/
def isUtf8ContinuationByte (b : Nat) : Bool := decide (128 ≤ b ∧ b < 192)

/-- The number of UTF-8 characters a byte string holds, counted as the bytes
that start a character (every byte that is not a continuation byte). -/
def countUtf8StartBytes (s : Str) : Nat :=
  (s.filter (fun b => !isUtf8ContinuationByte b)).length

/- Concrete byte strings used by the evaluation theorems. -/

/-- "Hello World". -/
def bHelloWorld : Str := [72, 101, 108, 108, 111, 32, 87, 111, 114, 108, 100]

/-- "hello". -/
def bhello : Str := [104, 101, 108, 108, 111]

/-- "Hello". -/
def bHello : Str := [72, 101, 108, 108, 111]

/-- "HELLO". -/
def bHELLO : Str := [72, 69, 76, 76, 79]

/-- "id1". -/
def bId1 : Str := [105, 100, 49]

/-- "disp". -/
def bDisp : Str := [100, 105, 115, 112]

/-- "x". -/
def bIdX : Str := [120]

/-- "ab". -/
def bAB : Str := [97, 98]

/-- "cd". -/
def bCD : Str := [99, 100]

/-- "d1". -/
def bD1 : Str := [100, 49]

/-- "d2". -/
def bD2 : Str := [100, 50]

/-- "abcd". -/
def bABCD : Str := [97, 98, 99, 100]

/-! Membership lemmas for the sorted-set model. -/

theorem mem_zadd {store : List Str} {x m : Str} : m ∈ zadd store x ↔ m = x ∨ m ∈ store := by
  induction store with
  | nil => simp [zadd]
  | cons y ys ih =>
    rw [zadd]
    by_cases hle : lexLe x y
    · rw [if_pos hle]
      by_cases hxy : x = y
      · rw [if_pos hxy]
        subst hxy
        simp only [List.mem_cons]
        tauto
      · rw [if_neg hxy]
        simp only [List.mem_cons]
    · rw [if_neg hle]
      simp only [List.mem_cons, ih]
      tauto

theorem mem_foldl_zadd (ms : List Str) (st : List Str) (m : Str) :
    m ∈ ms.foldl zadd st ↔ m ∈ st ∨ m ∈ ms := by
  induction ms generalizing st with
  | nil => simp
  | cons a as ih =>
    rw [List.foldl_cons, ih]
    rw [mem_zadd]
    simp only [List.mem_cons]
    tauto

theorem mem_zrem {store : List Str} {x m : Str} : m ∈ zrem store x ↔ m ∈ store ∧ m ≠ x := by
  simp [zrem, List.mem_filter]

theorem mem_foldl_zrem (ms : List Str) (st : List Str) (m : Str) :
    m ∈ ms.foldl zrem st ↔ m ∈ st ∧ ∀ x ∈ ms, m ≠ x := by
  induction ms generalizing st with
  | nil => simp
  | cons a as ih =>
    rw [List.foldl_cons, ih]
    rw [mem_zrem]
    simp only [List.mem_cons, forall_eq_or_imp]
    tauto

theorem zrangebylex_subset (store : List Str) (lo hi : Str) (count : Nat) :
    zrangebylex store lo hi count ⊆ store := by
  intro m hm
  have h1 := List.take_subset _ _ hm
  exact (List.mem_filter.mp h1).1

/-! Hash-table lemmas. -/

theorem hget_hset_self (tbl : List (Str × Str)) (k v : Str) : hget (hset tbl k v) k = some v := by
  simp [hget, hset, List.find?]

theorem hget_hdel_self (tbl : List (Str × Str)) (k : Str) : hget (hdel tbl k) k = none := by
  have h : List.find? (fun p => decide (p.fst = k)) (hdel tbl k) = none := by
    rw [List.find?_eq_none]
    intro p hp
    have h2 := (List.mem_filter.mp hp).2
    simp only [decide_eq_true_eq] at h2 ⊢
    exact h2
  simp only [hget, h, Option.map_none']

/-! Composite-key decoding lemmas. -/

theorem splitOnSep_no_sep {l : Str} (h : sepByte ∉ l) : splitOnSep l = [l] := by
  induction l with
  | nil => rfl
  | cons b bs ih =>
    simp only [List.mem_cons, not_or] at h
    rw [splitOnSep, if_neg (fun hb => h.1 hb.symm), ih h.2]

theorem splitOnSep_append {a : Str} (r : Str) (h : sepByte ∉ a) :
    splitOnSep (a ++ sepByte :: r) = a :: splitOnSep r := by
  induction a with
  | nil => simp [splitOnSep]
  | cons b bs ih =>
    simp only [List.mem_cons, not_or] at h
    rw [List.cons_append, splitOnSep, if_neg (fun hb => h.1 hb.symm), ih h.2]

theorem natDecimalAux_lt (fuel : Nat) : ∀ (n : Nat), ∀ b ∈ natDecimalAux fuel n, b < 58 := by
  induction fuel with
  | zero =>
    intro n b hb
    simp [natDecimalAux] at hb
  | succ f ih =>
    intro n b hb
    match n with
    | 0 => simp [natDecimalAux] at hb
    | m + 1 =>
      rw [natDecimalAux] at hb
      rcases List.mem_cons.mp hb with rfl | hb2
      · have := Nat.mod_lt (m + 1) (show 0 < 10 by omega)
        omega
      · exact ih _ b hb2

theorem sep_not_mem_natDecimal (n : Nat) : sepByte ∉ natDecimal n := by
  intro hmem
  rw [natDecimal] at hmem
  by_cases h0 : n = 0
  · rw [if_pos h0] at hmem
    simp [sepByte] at hmem
  · rw [if_neg h0] at hmem
    have := natDecimalAux_lt n n sepByte (List.mem_reverse.mp hmem)
    simp [sepByte] at this

theorem splitOnSep_positional {tok id : Str} (pos : Nat) (ht : sepByte ∉ tok)
    (hi : sepByte ∉ id) :
    splitOnSep (createPositionalMember tok id pos) = [tok, id, natDecimal pos] := by
  rw [createPositionalMember, splitOnSep_append _ ht, splitOnSep_append _ hi,
    splitOnSep_no_sep (sep_not_mem_natDecimal pos)]

theorem splitOnSep_prefix_member {tok id : Str} (ht : sepByte ∉ tok) (hi : sepByte ∉ id) :
    splitOnSep (createPrefixMember tok id) = [tok, id] := by
  rw [createPrefixMember, splitOnSep_append _ ht, splitOnSep_no_sep hi]

theorem extractIDFromMember_positional {tok id : Str} (pos : Nat) (minParts : Nat)
    (ht : sepByte ∉ tok) (hi : sepByte ∉ id) (hmp : minParts ≤ 3) :
    extractIDFromMember (createPositionalMember tok id pos) minParts = id := by
  rw [extractIDFromMember]
  rw [splitOnSep_positional pos ht hi]
  simp [hmp]

/-! Lexicographic range lemmas. -/

theorem lexLe_append (q r : Str) : lexLe q (q ++ r) = true := by
  induction q with
  | nil => rfl
  | cons a as ih => simp [lexLe, ih]

theorem lexLe_append_upper {b : Nat} (q r : Str) (hb : b < 255) :
    lexLe (q ++ b :: r) (q ++ [255]) = true := by
  induction q with
  | nil => simp [lexLe, hb]
  | cons a as ih => simp [lexLe, ih]

theorem prefix_of_lex_range {a m : Str} (h1 : lexLe a m = true)
    (h2 : lexLe m (a ++ [255]) = true) : a <+: m := by
  induction a generalizing m with
  | nil => exact List.nil_prefix
  | cons x xs ih =>
    cases m with
    | nil => simp [lexLe] at h1
    | cons y ys =>
      rw [lexLe] at h1
      rw [List.cons_append, lexLe] at h2
      by_cases hxy : x < y
      · rw [if_neg (by omega), if_pos hxy] at h2
        simp at h2
      · by_cases hyx : y < x
        · rw [if_neg hxy, if_pos hyx] at h1
          simp at h1
        · have hx : x = y := by omega
          subst hx
          rw [if_neg hxy, if_neg hyx] at h1
          rw [if_neg hyx, if_neg hxy] at h2
          exact List.cons_prefix_cons.mpr ⟨rfl, ih h1 h2⟩

theorem prefix_through_sep {sq p rest : Str} (h : sq <+: p ++ sepByte :: rest)
    (hsep : sepByte ∉ sq) : sq <+: p := by
  by_cases hlen : sq.length ≤ p.length
  · have heq : sq = (p ++ sepByte :: rest).take sq.length := List.prefix_iff_eq_take.mp h
    rw [List.take_append_of_le_length hlen] at heq
    rw [heq]
    exact List.take_prefix _ _
  · exfalso
    apply hsep
    have hps : p ++ [sepByte] <+: p ++ sepByte :: rest := ⟨rest, by simp⟩
    rcases List.prefix_or_prefix_of_prefix h hps with h1 | h1
    · have h2 : sq.length = p.length + 1 := by
        have h3 := h1.length_le
        simp only [List.length_append, List.length_singleton] at h3
        omega
      have h4 : sq = p ++ [sepByte] :=
        List.IsPrefix.eq_of_length h1 (by simp [h2])
      rw [h4]
      exact List.mem_append_right _ (List.mem_singleton.mpr rfl)
    · exact h1.subset (List.mem_append_right _ (List.mem_singleton.mpr rfl))

/-! Extraction and result-assembly lemmas. -/

theorem extractIDFromMember_ne_nil {m : Str} {minP : Nat}
    (h : extractIDFromMember m minP ≠ []) :
    minP ≤ (splitOnSep m).length ∧ (splitOnSep m).getD 1 [] = extractIDFromMember m minP := by
  rw [extractIDFromMember] at h ⊢
  by_cases hc : minP ≤ (splitOnSep m).length
  · exact ⟨hc, by rw [if_pos hc]⟩
  · rw [if_neg hc] at h
    exact absurd rfl h

theorem getElem?_one_of_two_le {l : List Str} (h : 2 ≤ l.length) :
    l[1]? = some (l.getD 1 []) := by
  have h1 : 1 < l.length := h
  rw [List.getD_eq_getElem?_getD, List.getElem?_eq_getElem h1]
  rfl

theorem mem_addDecodedID {minP : Nat} {s : List Str} {r i : Str} :
    i ∈ addDecodedID minP s r ↔
      i ∈ s ∨ (i = extractIDFromMember r minP ∧ i ≠ []) := by
  rw [addDecodedID]
  split
  · rename_i hc
    simp only [List.mem_append, List.mem_singleton]
    constructor
    · rintro (h | rfl)
      · exact Or.inl h
      · exact Or.inr ⟨rfl, hc.1⟩
    · rintro (h | ⟨rfl, _⟩)
      · exact Or.inl h
      · exact Or.inr rfl
  · rename_i hc
    push_neg at hc
    constructor
    · exact Or.inl
    · rintro (h | ⟨rfl, hne⟩)
      · exact h
      · exact hc hne

theorem extractIDsFromResults_fold_spec (minP : Nat) (results : List Str) :
    ∀ (init : List Str), ∀ i ∈ results.foldl (addDecodedID minP) init,
      i ∈ init ∨ (i ≠ [] ∧ ∃ m ∈ results, extractIDFromMember m minP = i) := by
  induction results with
  | nil =>
    intro init i hi
    exact Or.inl hi
  | cons r rs ih =>
    intro init i hi
    rw [List.foldl_cons] at hi
    rcases ih _ i hi with hin | ⟨hne, m, hm, he⟩
    · rcases mem_addDecodedID.mp hin with h | ⟨rfl, hne⟩
      · exact Or.inl h
      · exact Or.inr ⟨hne, r, List.mem_cons_self r rs, rfl⟩
    · exact Or.inr ⟨hne, m, List.mem_cons_of_mem r hm, he⟩

theorem mem_extractIDsFromResults {results : List Str} {minP : Nat} {i : Str}
    (h : i ∈ extractIDsFromResults results minP) :
    i ≠ [] ∧ ∃ m ∈ results, extractIDFromMember m minP = i := by
  rcases extractIDsFromResults_fold_spec minP results [] i h with hin | hs
  · cases hin
  · exact hs

theorem extractUniqueIDsLoop_mono (maxR minP : Nat) (rs : List Str) :
    ∀ (ids : List Str), ∀ i ∈ ids, i ∈ extractUniqueIDsLoop maxR minP rs ids := by
  induction rs with
  | nil =>
    intro ids i hi
    simpa [extractUniqueIDsLoop] using hi
  | cons r rs ih =>
    intro ids i hi
    rw [extractUniqueIDsLoop]
    split
    · split
      · exact List.mem_append_left _ hi
      · exact ih _ i (List.mem_append_left _ hi)
    · exact ih _ i hi

theorem extractUniqueIDsLoop_spec (maxR minP : Nat) (rs : List Str) :
    ∀ (ids : List Str), ∀ i ∈ extractUniqueIDsLoop maxR minP rs ids,
      i ∈ ids ∨ (i ≠ [] ∧ ∃ m ∈ rs, extractIDFromMember m minP = i) := by
  induction rs with
  | nil =>
    intro ids i hi
    left
    simpa [extractUniqueIDsLoop] using hi
  | cons r rs ih =>
    intro ids i hi
    rw [extractUniqueIDsLoop] at hi
    by_cases hc : extractIDFromMember r minP ≠ [] ∧ extractIDFromMember r minP ∉ ids
    · rw [if_pos hc] at hi
      by_cases hbrk : maxR ≤ (ids ++ [extractIDFromMember r minP]).length
      · rw [if_pos hbrk] at hi
        rcases List.mem_append.mp hi with h | h
        · exact Or.inl h
        · rw [List.mem_singleton] at h
          subst h
          exact Or.inr ⟨hc.1, r, List.mem_cons_self r rs, rfl⟩
      · rw [if_neg hbrk] at hi
        rcases ih _ i hi with h | ⟨hne, m, hm, he⟩
        · rcases List.mem_append.mp h with h2 | h2
          · exact Or.inl h2
          · rw [List.mem_singleton] at h2
            subst h2
            exact Or.inr ⟨hc.1, r, List.mem_cons_self r rs, rfl⟩
        · exact Or.inr ⟨hne, m, List.mem_cons_of_mem r hm, he⟩
    · rw [if_neg hc] at hi
      rcases ih _ i hi with h | ⟨hne, m, hm, he⟩
      · exact Or.inl h
      · exact Or.inr ⟨hne, m, List.mem_cons_of_mem r hm, he⟩

theorem extractUniqueIDsLoop_complete (maxR minP : Nat) (rs : List Str) :
    ∀ (ids : List Str), ids.length + rs.length ≤ maxR →
      ∀ m ∈ rs, extractIDFromMember m minP ≠ [] →
      extractIDFromMember m minP ∈ extractUniqueIDsLoop maxR minP rs ids := by
  induction rs with
  | nil =>
    intro ids _ m hm
    exact absurd hm (List.not_mem_nil m)
  | cons r rs ih =>
    intro ids hlen m hm hne
    rw [extractUniqueIDsLoop]
    rw [List.length_cons] at hlen
    rcases List.mem_cons.mp hm with rfl | hm2
    · by_cases hc : extractIDFromMember m minP ≠ [] ∧ extractIDFromMember m minP ∉ ids
      · rw [if_pos hc]
        split
        · exact List.mem_append_right _ (List.mem_singleton.mpr rfl)
        · exact extractUniqueIDsLoop_mono maxR minP rs _ _
            (List.mem_append_right _ (List.mem_singleton.mpr rfl))
      · rw [if_neg hc]
        push_neg at hc
        exact extractUniqueIDsLoop_mono maxR minP rs _ _ (hc hne)
    · by_cases hc : extractIDFromMember r minP ≠ [] ∧ extractIDFromMember r minP ∉ ids
      · rw [if_pos hc]
        have hrs : 1 ≤ rs.length := List.length_pos.mpr (List.ne_nil_of_mem hm2)
        have hbrk : ¬ maxR ≤ (ids ++ [extractIDFromMember r minP]).length := by
          simp only [List.length_append, List.length_singleton]
          omega
        rw [if_neg hbrk]
        refine ih _ ?_ m hm2 hne
        simp only [List.length_append, List.length_singleton]
        omega
      · rw [if_neg hc]
        exact ih _ (by omega) m hm2 hne

theorem collectNGramSets_eq (store : List Str) (count : Nat) (ws : List Str) :
    collectNGramSets store count ws =
      if ∃ w ∈ ws, windowSet store count w = [] then none
      else some (ws.map (windowSet store count)) := by
  induction ws with
  | nil => simp [collectNGramSets]
  | cons w ws ih =>
    by_cases h1 : windowSet store count w = []
    · have hex : ∃ v ∈ w :: ws, windowSet store count v = [] :=
        ⟨w, List.mem_cons_self w ws, h1⟩
      rw [if_pos hex, collectNGramSets, if_pos (by simp [isEmptySet, h1])]
    · by_cases h2 : ∃ v ∈ ws, windowSet store count v = []
      · obtain ⟨v, hv, he⟩ := h2
        have hex : ∃ v ∈ w :: ws, windowSet store count v = [] :=
          ⟨v, List.mem_cons_of_mem w hv, he⟩
        rw [if_pos hex, collectNGramSets, if_neg (by simp [isEmptySet, List.isEmpty_iff, h1]),
          ih, if_pos ⟨v, hv, he⟩]
        rfl
      · have hnex : ¬ ∃ v ∈ w :: ws, windowSet store count v = [] := by
          rintro ⟨v, hv, he⟩
          rcases List.mem_cons.mp hv with rfl | hv2
          · exact h1 he
          · exact h2 ⟨v, hv2, he⟩
        rw [if_neg hnex, collectNGramSets, if_neg (by simp [isEmptySet, List.isEmpty_iff, h1]),
          ih, if_neg h2]
        rfl

theorem mem_intersectIDSets {s0 : List Str} {rest : List (List Str)} {i : Str} :
    i ∈ intersectIDSets (s0 :: rest) ↔ i ∈ s0 ∧ ∀ t ∈ rest, i ∈ t := by
  rw [intersectIDSets, List.mem_filter]
  simp only [decide_eq_true_eq]

theorem mem_fetchProviderResults {s : RedisState} {ids : List Str} {i d : Str} :
    (i, d) ∈ fetchProviderResults s ids ↔ i ∈ ids ∧ hget s.displayTbl i = some d := by
  simp only [fetchProviderResults, List.mem_filterMap, Option.map_eq_some', Prod.mk.injEq]
  constructor
  · rintro ⟨a, ha, v, hv, rfl, rfl⟩
    exact ⟨ha, hv⟩
  · rintro ⟨hi, hh⟩
    exact ⟨i, hi, d, hh, rfl, rfl⟩

theorem mem_allPrefixMembers {text id m : Str} :
    m ∈ allPrefixMembers text id ↔
      ∃ i, i < text.length ∧ m = createPrefixMember (text.take (i + 1)) id := by
  simp only [allPrefixMembers, List.mem_map, List.mem_range]
  constructor
  · rintro ⟨i, hi, rfl⟩
    exact ⟨i, hi, rfl⟩
  · rintro ⟨i, hi, rfl⟩
    exact ⟨i, hi, rfl⟩

theorem mem_allSubstringMembers {text id m : Str} :
    m ∈ allSubstringMembers text id ↔
      ∃ start k, start < text.length ∧ k < text.length - start ∧
        m = createPositionalMember ((text.drop start).take (k + 1)) id start := by
  simp only [allSubstringMembers, List.mem_flatten, List.mem_map, List.mem_range]
  constructor
  · rintro ⟨l, ⟨start, hstart, rfl⟩, hm⟩
    simp only [List.mem_map, List.mem_range] at hm
    obtain ⟨k, hk, rfl⟩ := hm
    exact ⟨start, k, hstart, hk, rfl⟩
  · rintro ⟨start, k, h1, h2, rfl⟩
    refine ⟨_, ⟨start, h1, rfl⟩, ?_⟩
    simp only [List.mem_map, List.mem_range]
    exact ⟨k, h2, rfl⟩

theorem getNGramSizeOrDefault_pos (n : Int) : 1 ≤ getNGramSizeOrDefault n := by
  rw [getNGramSizeOrDefault]
  split
  · simp [defaultNGramSize]
  · rename_i h
    omega

theorem indexMembers_subset (textN id : Str) (strat : MatchStrategy) (nsz : Int) :
    ∀ m ∈ indexMembers textN id strat nsz,
      m ∈ allPrefixMembers textN id ∨ m ∈ allSubstringMembers textN id := by
  intro m hm
  have hn := getNGramSizeOrDefault_pos nsz
  cases strat with
  | MatchPrefix => exact Or.inl hm
  | MatchSubstring => exact Or.inr hm
  | MatchNGram =>
    right
    simp only [indexMembers, List.mem_map, List.mem_range] at hm
    obtain ⟨i, hi, rfl⟩ := hm
    rw [mem_allSubstringMembers]
    refine ⟨i, getNGramSizeOrDefault nsz - 1, by omega, by omega, ?_⟩
    have h1 : getNGramSizeOrDefault nsz - 1 + 1 = getNGramSizeOrDefault nsz := by omega
    rw [h1]
  | MatchNOrMoreGram =>
    right
    simp only [indexMembers, List.mem_flatten, List.mem_map, List.mem_range] at hm
    obtain ⟨l, ⟨start, hstart, rfl⟩, hm⟩ := hm
    simp only [List.mem_map, List.mem_range] at hm
    obtain ⟨k, hk, rfl⟩ := hm
    rw [mem_allSubstringMembers]
    refine ⟨start, getNGramSizeOrDefault nsz + k - 1, hstart, by omega, ?_⟩
    have h1 : getNGramSizeOrDefault nsz + k - 1 + 1 = getNGramSizeOrDefault nsz + k := by omega
    rw [h1]

theorem two_le_getMinPartsForStrategy (strat : MatchStrategy) :
    2 ≤ getMinPartsForStrategy strat := by
  rw [getMinPartsForStrategy]
  split
  · simp [minMemberPartsForID]
  · simp [minMemberPartsForPositionalID]

theorem getMinPartsForStrategy_le_three (strat : MatchStrategy) :
    getMinPartsForStrategy strat ≤ 3 := by
  rw [getMinPartsForStrategy]
  split
  · simp [minMemberPartsForID]
  · simp [minMemberPartsForPositionalID]

theorem Index_tokenIndex (s : RedisState) (id text display : Str) (opts : IndexOptions) :
    (Provider.Index s id text display opts).tokenIndex =
      (indexMembers (if opts.caseSensitive then text else toLowerStr text) id
        opts.matchStrategy opts.nGramSize).foldl zadd s.tokenIndex := rfl

theorem Index_textTbl (s : RedisState) (id text display : Str) (opts : IndexOptions) :
    (Provider.Index s id text display opts).textTbl = hset s.textTbl id text := rfl

theorem Index_displayTbl (s : RedisState) (id text display : Str) (opts : IndexOptions) :
    (Provider.Index s id text display opts).displayTbl = hset s.displayTbl id display := rfl

theorem Index_metaTbl (s : RedisState) (id text display : Str) (opts : IndexOptions) :
    (Provider.Index s id text display opts).metaTbl =
      (if opts.caseSensitive then hset s.metaTbl id [49] else hdel s.metaTbl id) := rfl

theorem queryNGramSlidingWindow_eq (s : RedisState) (sq : Str) (n : Nat)
    (options : QueryOptions) :
    queryNGramSlidingWindow s sq n options =
      if ∃ w ∈ windowsOf sq n,
          windowSet s.tokenIndex (options.maxResults * resultMultiplierForIntersection) w = []
      then []
      else fetchProviderResults s (limitResults (intersectIDSets ((windowsOf sq n).map
        (windowSet s.tokenIndex (options.maxResults * resultMultiplierForIntersection))))
        options.maxResults) := by
  by_cases hex : ∃ w ∈ windowsOf sq n,
      windowSet s.tokenIndex (options.maxResults * resultMultiplierForIntersection) w = []
  · simp only [queryNGramSlidingWindow, collectNGramSets_eq, if_pos hex]
  · simp only [queryNGramSlidingWindow, collectNGramSets_eq, if_neg hex]

theorem indexMembers_nil (id : Str) (strat : MatchStrategy) (nsz : Int) :
    indexMembers [] id strat nsz = [] := by
  have h1 := getNGramSizeOrDefault_pos nsz
  cases strat with
  | MatchPrefix => rfl
  | MatchSubstring => rfl
  | MatchNOrMoreGram => rfl
  | MatchNGram =>
    simp only [indexMembers, List.length_nil]
    rw [show 0 + 1 - getNGramSizeOrDefault nsz = 0 by omega]
    rfl

theorem Delete_tokenIndex (s : RedisState) (id : Str) :
    (Provider.Delete s id).tokenIndex =
      if (hget s.textTbl id).getD [] ≠ [] then
        removePositionalMembers (removePrefixMembers s.tokenIndex
          (if hget s.metaTbl id = some [49] then (hget s.textTbl id).getD []
           else toLowerStr ((hget s.textTbl id).getD [])) id)
          (if hget s.metaTbl id = some [49] then (hget s.textTbl id).getD []
           else toLowerStr ((hget s.textTbl id).getD [])) id
      else s.tokenIndex := rfl

theorem Delete_textTbl (s : RedisState) (id : Str) :
    (Provider.Delete s id).textTbl = hdel s.textTbl id := rfl

theorem Delete_displayTbl (s : RedisState) (id : Str) :
    (Provider.Delete s id).displayTbl = hdel s.displayTbl id := rfl

theorem Delete_metaTbl (s : RedisState) (id : Str) :
    (Provider.Delete s id).metaTbl = hdel s.metaTbl id := rfl

/-- Every id in a query result is decoded - as the second separator-delimited
field - from some member of the token index. -/
theorem Query_result_ids (s : RedisState) (q : Str) (qopts : QueryOptions) :
    ∀ i d, (i, d) ∈ (Provider.Query s q qopts).fst →
      ∃ m ∈ s.tokenIndex, (splitOnSep m)[1]? = some i := by
  intro i d hmem
  simp only [Provider.Query] at hmem
  by_cases h1 : qopts.matchStrategy = .MatchNGram ∧
      (if qopts.caseSensitive then q else toLowerStr q).length < 1
  · rw [if_pos h1] at hmem
    cases hmem
  · rw [if_neg h1] at hmem
    by_cases h2 : qopts.matchStrategy = .MatchNGram ∧
        getNGramSizeOrDefault qopts.nGramSize <
          (if qopts.caseSensitive then q else toLowerStr q).length
    · rw [if_pos h2] at hmem
      dsimp only at hmem
      rw [queryNGramSlidingWindow_eq] at hmem
      by_cases hex : ∃ w ∈ windowsOf (if qopts.caseSensitive then q else toLowerStr q)
          (getNGramSizeOrDefault qopts.nGramSize),
          windowSet s.tokenIndex (qopts.maxResults * resultMultiplierForIntersection) w = []
      · rw [if_pos hex] at hmem
        cases hmem
      · rw [if_neg hex] at hmem
        have hids := (mem_fetchProviderResults.mp hmem).1
        rw [limitResults] at hids
        have hid2 := List.take_subset _ _ hids
        cases hmap : (windowsOf (if qopts.caseSensitive then q else toLowerStr q)
            (getNGramSizeOrDefault qopts.nGramSize)).map
            (windowSet s.tokenIndex (qopts.maxResults * resultMultiplierForIntersection)) with
        | nil =>
          rw [hmap] at hid2
          cases hid2
        | cons s0 rest =>
          rw [hmap] at hid2
          have hs0 := (mem_intersectIDSets.mp hid2).1
          have hs0mem : s0 ∈ (windowsOf (if qopts.caseSensitive then q else toLowerStr q)
              (getNGramSizeOrDefault qopts.nGramSize)).map
              (windowSet s.tokenIndex (qopts.maxResults * resultMultiplierForIntersection)) := by
            rw [hmap]
            exact List.mem_cons_self _ _
          obtain ⟨w, _, hws⟩ := List.mem_map.mp hs0mem
          rw [← hws, windowSet] at hs0
          obtain ⟨hne, m, hm, he⟩ := mem_extractIDsFromResults hs0
          subst he
          obtain ⟨hlenp, hgd⟩ := extractIDFromMember_ne_nil hne
          refine ⟨m, zrangebylex_subset _ _ _ _ hm, ?_⟩
          rw [getElem?_one_of_two_le (by
            have := hlenp
            simp only [minMemberPartsForPositionalID] at this
            omega), hgd]
    · rw [if_neg h2] at hmem
      by_cases h3 : qopts.matchStrategy = .MatchNOrMoreGram ∧
          (if qopts.caseSensitive then q else toLowerStr q).length <
            getNGramSizeOrDefault qopts.nGramSize
      · rw [if_pos h3] at hmem
        cases hmem
      · rw [if_neg h3] at hmem
        dsimp only at hmem
        have hids := (mem_fetchProviderResults.mp hmem).1
        rw [extractUniqueIDsFromResults] at hids
        rcases extractUniqueIDsLoop_spec _ _ _ _ i hids with h | ⟨hne, m, hm, he⟩
        · cases h
        · subst he
          obtain ⟨hlenp, hgd⟩ := extractIDFromMember_ne_nil hne
          have h2le := two_le_getMinPartsForStrategy qopts.matchStrategy
          refine ⟨m, zrangebylex_subset _ _ _ _ hm, ?_⟩
          rw [getElem?_one_of_two_le (by omega), hgd]

/-! The claims. -/

/-- C1: REFUTED by the code (code bug).  The claim states that after a
successful Index call the token index contains exactly the keys tokenized
from the newly supplied text, re-indexing an existing id removing every
composite key written by its previous Index first.  Provider.Index only adds
the new members and never removes the previous ones: after indexing id "x"
with text "ab" under the prefix strategy and then re-indexing the same id
with text "cd", the stale member "a:x" of the first text is still in the
token index although it is not among the members of the new text, and
querying the stale text "ab" still returns id "x". -/
theorem claim_C1_reindex_leaves_stale_tokens :
    createPrefixMember [97] bIdX ∈
      (Provider.Index (Provider.Index emptyState bIdX bAB bD1 ⟨.MatchPrefix, 3, false⟩)
        bIdX bCD bD2 ⟨.MatchPrefix, 3, false⟩).tokenIndex
  ∧ createPrefixMember [97] bIdX ∉ indexMembers bCD bIdX .MatchPrefix 3
  ∧ (Provider.Query
      (Provider.Index (Provider.Index emptyState bIdX bAB bD1 ⟨.MatchPrefix, 3, false⟩)
        bIdX bCD bD2 ⟨.MatchPrefix, 3, false⟩)
      bAB ⟨10, false, .MatchPrefix, 3⟩).fst = [(bIdX, bD2)] := by
  decide

/-- C4 counterexample: the claim states that a composite key whose id contains
the separator character fails to decode and is skipped during result assembly,
contributing no id.  The member built for id "a:b" (which contains the
separator) with token "to" at position 0 splits into four fields, at least the
positional minimum of three, so it decodes and contributes the truncated id
"a" to the results instead of being skipped. -/
theorem claim_C4_counterexample :
    extractUniqueIDsFromResults [createPositionalMember [116, 111] [97, 58, 98] 0]
      ⟨10, false, .MatchSubstring, 3⟩ = [[97]] := by
  decide

/-- C7: confirmed.  Indexing "Hello World" with caseSensitive=true (prefix
strategy) and querying "hello" returns no match while "Hello" matches;
indexing with caseSensitive=false makes both "hello" and "HELLO" match,
since text and query are both lowercased first. -/
theorem claim_C7_case_sensitivity :
    (Provider.Query (Provider.Index emptyState bId1 bHelloWorld bDisp ⟨.MatchPrefix, 3, true⟩)
      bhello ⟨10, true, .MatchPrefix, 3⟩).fst = []
  ∧ (Provider.Query (Provider.Index emptyState bId1 bHelloWorld bDisp ⟨.MatchPrefix, 3, true⟩)
      bHello ⟨10, true, .MatchPrefix, 3⟩).fst = [(bId1, bDisp)]
  ∧ (Provider.Query (Provider.Index emptyState bId1 bHelloWorld bDisp ⟨.MatchPrefix, 3, false⟩)
      bhello ⟨10, false, .MatchPrefix, 3⟩).fst = [(bId1, bDisp)]
  ∧ (Provider.Query (Provider.Index emptyState bId1 bHelloWorld bDisp ⟨.MatchPrefix, 3, false⟩)
      bHELLO ⟨10, false, .MatchPrefix, 3⟩).fst = [(bId1, bDisp)] := by
  decide

/-- C10: confirmed.  Tokenization slices by byte index: the 2-grams of the
UTF-8 bytes of "éa" ([195, 169, 97]) include the token [169, 97], which starts
with a UTF-8 continuation byte, splitting the two-byte character across
tokens.  The minimum-query-length check counts bytes: with MinPrefixLength 2,
the single two-byte character "é" ([195, 169], one character by UTF-8 start
bytes) passes validation and reaches the backend scan instead of being
rejected as too short. -/
theorem claim_C10_byte_level_tokenization :
    indexMembers [195, 169, 97] bIdX .MatchNGram 2 =
      [createPositionalMember [195, 169] bIdX 0, createPositionalMember [169, 97] bIdX 1]
  ∧ isUtf8ContinuationByte 169 = true
  ∧ autocompleteImpl.Query ⟨10, 100, false, 2, .MatchSubstring, 3⟩ emptyState [195, 169] 5 =
      .ok ([], [[195, 169]])
  ∧ countUtf8StartBytes [195, 169] = 1 := by
  decide

/-- C9: confirmed.  For the N-or-more-gram strategy, a query whose normalized
form is strictly shorter than the configured n-gram size returns the empty
result immediately, with an empty scan log: no backend range scan is issued. -/
theorem claim_C9_short_n_or_more_gram_query (s : RedisState) (q : Str)
    (options : QueryOptions) (hstrat : options.matchStrategy = .MatchNOrMoreGram)
    (hshort : (if options.caseSensitive then q else toLowerStr q).length <
      getNGramSizeOrDefault options.nGramSize) :
    Provider.Query s q options = ([], []) := by
  simp [Provider.Query, hstrat, hshort]

/-- Witness for C9: with n-gram size 3, the two-byte query "ab" under the
N-or-more-gram strategy yields the empty result and no scans. -/
theorem claim_C9_witness :
    Provider.Query emptyState bAB ⟨10, false, .MatchNOrMoreGram, 3⟩ = ([], []) :=
  claim_C9_short_n_or_more_gram_query emptyState bAB ⟨10, false, .MatchNOrMoreGram, 3⟩
    rfl (by decide)

/-- C8: confirmed.  autocompleteImpl.Index rejects an empty id, text or
display with the corresponding sentinel error, and autocompleteImpl.Query
rejects a query shorter than MinPrefixLength or a positive limit above
MaxLimit, in every case before any provider call (the error return carries no
provider state, so stored state is untouched). -/
theorem claim_C8_validation (cfg : Options) (s : RedisState) (id text display q : Str)
    (limit : Int) :
    (autocompleteImpl.Index cfg s [] text display = .error .ErrEmptyID)
  ∧ (id ≠ [] → autocompleteImpl.Index cfg s id [] display = .error .ErrEmptyText)
  ∧ (id ≠ [] → text ≠ [] → autocompleteImpl.Index cfg s id text [] = .error .ErrEmptyDisplay)
  ∧ ((q.length : Int) < cfg.minPrefixLength →
      autocompleteImpl.Query cfg s q limit = .error .ErrQueryTooShort)
  ∧ (cfg.minPrefixLength ≤ (q.length : Int) → 0 < limit → cfg.maxLimit < limit →
      autocompleteImpl.Query cfg s q limit = .error .ErrLimitExceeded) := by
  refine ⟨?_, ?_, ?_, ?_, ?_⟩
  · simp [autocompleteImpl.Index]
  · intro h1
    simp [autocompleteImpl.Index, h1]
  · intro h1 h2
    simp [autocompleteImpl.Index, h1, h2]
  · intro h
    simp [autocompleteImpl.Query, h]
  · intro h1 h2 h3
    simp only [autocompleteImpl.Query]
    rw [if_neg (show ¬ ((q.length : Int) < cfg.minPrefixLength) by omega)]
    rw [if_neg (show ¬ (limit ≤ 0) by omega)]
    rw [if_pos h3]

/-- Witness for C8: an empty id is rejected, an empty query fails the
minimum-length check, and a limit of 1000 against MaxLimit 100 is rejected. -/
theorem claim_C8_validation_witness :
    autocompleteImpl.Index ⟨10, 100, false, 1, .MatchSubstring, 3⟩ emptyState [] bAB bD1 =
      .error .ErrEmptyID
  ∧ autocompleteImpl.Query ⟨10, 100, false, 1, .MatchSubstring, 3⟩ emptyState [] 5 =
      .error .ErrQueryTooShort
  ∧ autocompleteImpl.Query ⟨10, 100, false, 1, .MatchSubstring, 3⟩ emptyState bAB 1000 =
      .error .ErrLimitExceeded :=
  ⟨(claim_C8_validation ⟨10, 100, false, 1, .MatchSubstring, 3⟩ emptyState bAB bAB bD1 [] 5).1,
   (claim_C8_validation ⟨10, 100, false, 1, .MatchSubstring, 3⟩ emptyState bAB bAB bD1 [] 5).2.2.2.1
     (by decide),
   (claim_C8_validation ⟨10, 100, false, 1, .MatchSubstring, 3⟩ emptyState bAB bAB bD1 bAB 1000).2.2.2.2
     (by decide) (by decide) (by decide)⟩

/-- C2: confirmed.  For an N-gram query whose normalized form is longer than
the n-gram size, Query scans exactly the contiguous length-n windows of the
query, decodes each scan into an id set, returns the empty result as soon as
any window's set is empty, and otherwise returns the intersection of all
window sets capped to the requested limit; an id appears in the result only
if it lies in every window's set. -/
theorem claim_C2_sliding_window_intersection (s : RedisState) (q sq : Str)
    (options : QueryOptions) (n : Nat)
    (hstrat : options.matchStrategy = .MatchNGram)
    (hsq : sq = if options.caseSensitive then q else toLowerStr q)
    (hn : n = getNGramSizeOrDefault options.nGramSize)
    (hlong : n < sq.length) :
    ((∃ w ∈ windowsOf sq n,
        windowSet s.tokenIndex (options.maxResults * resultMultiplierForIntersection) w = []) →
      (Provider.Query s q options).fst = [])
  ∧ ((∀ w ∈ windowsOf sq n,
        windowSet s.tokenIndex (options.maxResults * resultMultiplierForIntersection) w ≠ []) →
      (Provider.Query s q options).fst =
        fetchProviderResults s (limitResults
          (intersectIDSets ((windowsOf sq n).map
            (windowSet s.tokenIndex (options.maxResults * resultMultiplierForIntersection))))
          options.maxResults))
  ∧ (∀ i d, (i, d) ∈ (Provider.Query s q options).fst →
      ∀ w ∈ windowsOf sq n,
        i ∈ windowSet s.tokenIndex (options.maxResults * resultMultiplierForIntersection) w)
  ∧ (Provider.Query s q options).snd = windowsOf sq n := by
  subst hsq
  subst hn
  have h1 := getNGramSizeOrDefault_pos options.nGramSize
  have hlen1 : ¬ ((if options.caseSensitive then q else toLowerStr q).length < 1) := by omega
  have hq : Provider.Query s q options =
      (queryNGramSlidingWindow s (if options.caseSensitive then q else toLowerStr q)
        (getNGramSizeOrDefault options.nGramSize) options,
       windowsOf (if options.caseSensitive then q else toLowerStr q)
        (getNGramSizeOrDefault options.nGramSize)) := by
    simp [Provider.Query, hstrat, hlen1, hlong]
  have hfst : (Provider.Query s q options).fst =
      queryNGramSlidingWindow s (if options.caseSensitive then q else toLowerStr q)
        (getNGramSizeOrDefault options.nGramSize) options := by
    rw [hq]
  refine ⟨?_, ?_, ?_, ?_⟩
  · intro hex
    rw [hfst, queryNGramSlidingWindow_eq, if_pos hex]
  · intro hall
    rw [hfst, queryNGramSlidingWindow_eq, if_neg (fun ⟨w, hw, he⟩ => hall w hw he)]
  · intro i d hmem w hw
    rw [hfst, queryNGramSlidingWindow_eq] at hmem
    by_cases hex : ∃ v ∈ windowsOf (if options.caseSensitive then q else toLowerStr q)
        (getNGramSizeOrDefault options.nGramSize),
        windowSet s.tokenIndex (options.maxResults * resultMultiplierForIntersection) v = []
    · rw [if_pos hex] at hmem
      cases hmem
    · rw [if_neg hex] at hmem
      obtain ⟨w1, ws', hsplit⟩ :=
        List.exists_cons_of_ne_nil (List.ne_nil_of_mem hw)
      rw [hsplit] at hmem hw
      have hin := (mem_fetchProviderResults.mp hmem).1
      have hin2 := List.take_subset _ _ hin
      rw [List.map_cons] at hin2
      have hint := mem_intersectIDSets.mp hin2
      rcases List.mem_cons.mp hw with rfl | hw2
      · exact hint.1
      · exact hint.2 _ (List.mem_map_of_mem _ hw2)
  · rw [hq]

/-- Witness for C2: indexing "abcd" under the 3-gram strategy and querying
"abcd" (length 4 > 3) issues exactly the window scans "abc" and "bcd". -/
theorem claim_C2_witness :
    (Provider.Query (Provider.Index emptyState bIdX bABCD bD1 ⟨.MatchNGram, 3, false⟩)
      bABCD ⟨10, false, .MatchNGram, 3⟩).snd = windowsOf bABCD 3 :=
  (claim_C2_sliding_window_intersection
    (Provider.Index emptyState bIdX bABCD bD1 ⟨.MatchNGram, 3, false⟩)
    bABCD bABCD ⟨10, false, .MatchNGram, 3⟩ 3
    rfl (by decide) (by decide) (by decide)).2.2.2

/-- C4 amended: a composite key with fewer separator-delimited fields than the
strategy's minimum (2 for prefix, 3 for positional strategies) decodes to the
empty id and is skipped during result assembly without error; but a key whose
id contains the separator character still decodes - every collected id is
non-empty and is the second separator-delimited field of some scanned member
with at least the minimum field count, so such a key contributes that
truncated field as an id rather than being skipped. -/
theorem claim_C4_amended_decode_handling (results : List Str) (options : QueryOptions) :
    (∀ m ∈ results,
      (splitOnSep m).length < getMinPartsForStrategy options.matchStrategy →
      extractIDFromMember m (getMinPartsForStrategy options.matchStrategy) = [])
  ∧ (∀ i ∈ extractUniqueIDsFromResults results options,
      i ≠ [] ∧ ∃ m ∈ results,
        getMinPartsForStrategy options.matchStrategy ≤ (splitOnSep m).length ∧
        (splitOnSep m).getD 1 [] = i) := by
  constructor
  · intro m _ hlt
    rw [extractIDFromMember, if_neg (by omega)]
  · intro i hi
    rw [extractUniqueIDsFromResults] at hi
    rcases extractUniqueIDsLoop_spec _ _ _ _ i hi with h | ⟨hne, m, hm, he⟩
    · cases h
    · subst he
      have hspec := extractIDFromMember_ne_nil hne
      exact ⟨hne, m, hm, hspec.1, hspec.2⟩

/-- Witness for C4 (amended): during a positional-strategy query, the
two-field prefix-format member "to:x" is skipped (it yields no id), and every
id collected from a scan decodes from a member with enough fields. -/
theorem claim_C4_amended_witness :
    (∀ m ∈ [createPrefixMember [116, 111] bIdX],
      (splitOnSep m).length < getMinPartsForStrategy MatchStrategy.MatchSubstring →
      extractIDFromMember m (getMinPartsForStrategy MatchStrategy.MatchSubstring) = [])
  ∧ (∀ i ∈ extractUniqueIDsFromResults [createPrefixMember [116, 111] bIdX]
        ⟨10, false, .MatchSubstring, 3⟩,
      i ≠ [] ∧ ∃ m ∈ [createPrefixMember [116, 111] bIdX],
        getMinPartsForStrategy MatchStrategy.MatchSubstring ≤ (splitOnSep m).length ∧
        (splitOnSep m).getD 1 [] = i) :=
  claim_C4_amended_decode_handling [createPrefixMember [116, 111] bIdX]
    ⟨10, false, .MatchSubstring, 3⟩

/-- C6 counterexample: the claim promises no match for every non-prefix
query, but a query containing the separator breaks it.  With text "ab"
indexed for id "x" under the Prefix strategy, the query "a:x" is not a prefix
of "ab" yet matches the entry: the scan hits the raw composite key "a:x"
itself, which decodes to id "x". -/
theorem claim_C6_counterexample :
    ¬ ([97, 58, 120] <+: bAB)
  ∧ (Provider.Query (Provider.Index emptyState bIdX bAB bD1 ⟨.MatchPrefix, 3, false⟩)
      [97, 58, 120] ⟨10, false, .MatchPrefix, 3⟩).fst = [(bIdX, bD1)] := by
  constructor
  · intro h
    have hl := h.length_le
    simp [bAB] at hl
  · decide

/-- C6 amended: under the Prefix strategy the token index of an entry holds
exactly one position-free composite key per non-empty prefix of the
case-normalized text; and any separator-free query that is not a prefix of
the normalized text returns no match for the entry. -/
theorem claim_C6_prefix_non_match (id text display q textN sq : Str) (nsz : Int)
    (cs : Bool) (qopts : QueryOptions)
    (htextN : textN = if cs then text else toLowerStr text)
    (hsq : sq = if qopts.caseSensitive then q else toLowerStr q)
    (hstrat : qopts.matchStrategy = .MatchPrefix)
    (hnp : ¬ sq <+: textN) (hsqsep : sepByte ∉ sq) :
    (∀ m, m ∈ (Provider.Index emptyState id text display ⟨.MatchPrefix, nsz, cs⟩).tokenIndex ↔
      ∃ p, p ≠ [] ∧ p <+: textN ∧ m = createPrefixMember p id)
  ∧ (Provider.Query (Provider.Index emptyState id text display ⟨.MatchPrefix, nsz, cs⟩)
      q qopts).fst = [] := by
  have hmem : ∀ m,
      m ∈ (Provider.Index emptyState id text display ⟨.MatchPrefix, nsz, cs⟩).tokenIndex ↔
      ∃ p, p ≠ [] ∧ p <+: textN ∧ m = createPrefixMember p id := by
    intro m
    rw [Index_tokenIndex, mem_foldl_zadd]
    have hempty : m ∈ emptyState.tokenIndex ↔ False := by simp [emptyState]
    rw [hempty, false_or]
    have hidx : indexMembers (if cs then text else toLowerStr text) id .MatchPrefix nsz =
        allPrefixMembers textN id := by
      rw [htextN]
      rfl
    rw [show (⟨.MatchPrefix, nsz, cs⟩ : IndexOptions).caseSensitive = cs from rfl] at *
    rw [hidx, mem_allPrefixMembers]
    constructor
    · rintro ⟨i, hi, rfl⟩
      have hlen : 0 < (textN.take (i + 1)).length := by
        rw [List.length_take]
        omega
      exact ⟨textN.take (i + 1), List.length_pos.mp hlen, List.take_prefix _ _, rfl⟩
    · rintro ⟨p, hp0, hpre, rfl⟩
      have hple := hpre.length_le
      have hp1 : 1 ≤ p.length := List.length_pos.mpr hp0
      refine ⟨p.length - 1, by omega, ?_⟩
      have h2 : p.length - 1 + 1 = p.length := by omega
      rw [h2, ← List.prefix_iff_eq_take.mp hpre]
  refine ⟨hmem, ?_⟩
  have hfilter : ((Provider.Index emptyState id text display
      ⟨.MatchPrefix, nsz, cs⟩).tokenIndex).filter
        (fun m => lexLe sq m && lexLe m (sq ++ [255])) = [] := by
    rw [List.filter_eq_nil_iff]
    intro m hm hpred
    obtain ⟨p, hp0, hpre, rfl⟩ := (hmem m).mp hm
    rw [Bool.and_eq_true] at hpred
    have hsqm := prefix_of_lex_range hpred.1 hpred.2
    rw [createPrefixMember] at hsqm
    exact hnp ((prefix_through_sep hsqm hsqsep).trans hpre)
  subst hsq
  simp [Provider.Query, hstrat, zrangebylex, createLexicographicStartKey,
    createLexicographicEndKey, lexicographicMaxChar, hfilter,
    extractUniqueIDsFromResults, extractUniqueIDsLoop, fetchProviderResults]

/-- C3: confirmed.  Starting from a token index holding no composite key whose
id field is the entry's id, the round trip Index then Delete leaves zero
composite keys referencing the id: Delete recomputes the removal set from the
stored text and case-sensitivity flag - a superset of what indexing wrote -
and also removes the text, display and metadata records, so any subsequent
query under any options returns no match for the id. -/
theorem claim_C3_index_delete_roundtrip (s s2 : RedisState) (id text display : Str)
    (opts : IndexOptions)
    (hs2 : s2 = Provider.Delete (Provider.Index s id text display opts) id)
    (hclean : ∀ m ∈ s.tokenIndex, (splitOnSep m)[1]? ≠ some id) :
    (∀ m ∈ s2.tokenIndex, (splitOnSep m)[1]? ≠ some id)
  ∧ hget s2.textTbl id = none
  ∧ hget s2.displayTbl id = none
  ∧ hget s2.metaTbl id = none
  ∧ (∀ q qopts i d, (i, d) ∈ (Provider.Query s2 q qopts).fst → i ≠ id) := by
  have hgettext : hget (Provider.Index s id text display opts).textTbl id = some text := by
    rw [Index_textTbl]
    exact hget_hset_self _ _ _
  have hmeta : hget (Provider.Index s id text display opts).metaTbl id =
      (if opts.caseSensitive then some [49] else none) := by
    rw [Index_metaTbl]
    by_cases hcs : opts.caseSensitive
    · rw [if_pos hcs, if_pos hcs]
      exact hget_hset_self _ _ _
    · rw [if_neg hcs, if_neg hcs]
      exact hget_hdel_self _ _
  have hsub : ∀ m ∈ s2.tokenIndex, m ∈ s.tokenIndex := by
    intro m hm
    rw [hs2, Delete_tokenIndex, hgettext, hmeta] at hm
    simp only [Option.getD_some] at hm
    by_cases htext : text = []
    · rw [if_neg (fun h => h htext)] at hm
      rw [Index_tokenIndex] at hm
      have hifnil : (if opts.caseSensitive then text else toLowerStr text) = [] := by
        subst htext
        cases opts.caseSensitive <;> simp [toLowerStr]
      rw [hifnil, indexMembers_nil] at hm
      exact hm
    · rw [if_pos htext] at hm
      have htdel : (if (if opts.caseSensitive then some [49] else none) = some [49]
            then text else toLowerStr text) =
          (if opts.caseSensitive then text else toLowerStr text) := by
        cases opts.caseSensitive <;> simp
      rw [htdel, removePositionalMembers, mem_foldl_zrem, removePrefixMembers,
        mem_foldl_zrem, Index_tokenIndex, mem_foldl_zadd] at hm
      obtain ⟨⟨hor, hnpfx⟩, hnsub⟩ := hm
      rcases hor with h | h
      · exact h
      · rcases indexMembers_subset _ _ _ _ m h with hp | hsb
        · exact absurd rfl (hnpfx m hp)
        · exact absurd rfl (hnsub m hsb)
  refine ⟨?_, ?_, ?_, ?_, ?_⟩
  · intro m hm
    exact hclean m (hsub m hm)
  · rw [hs2, Delete_textTbl]
    exact hget_hdel_self _ _
  · rw [hs2, Delete_displayTbl]
    exact hget_hdel_self _ _
  · rw [hs2, Delete_metaTbl]
    exact hget_hdel_self _ _
  · intro q qopts i d hmem
    obtain ⟨m, hm, h1⟩ := Query_result_ids s2 q qopts i d hmem
    exact fun heq => (hclean m (hsub m hm)) (heq ▸ h1)

/-- Witness for C3: indexing "ab" for id "x" in an empty namespace and then
deleting "x" leaves no text record for "x". -/
theorem claim_C3_witness :
    hget (Provider.Delete (Provider.Index emptyState bIdX bAB bD1 ⟨.MatchPrefix, 3, false⟩)
      bIdX).textTbl bIdX = none :=
  (claim_C3_index_delete_roundtrip emptyState
    (Provider.Delete (Provider.Index emptyState bIdX bAB bD1 ⟨.MatchPrefix, 3, false⟩) bIdX)
    bIdX bAB bD1 ⟨.MatchPrefix, 3, false⟩ rfl (by simp [emptyState])).2.1

/-- C5 counterexample: the claim promises a match for every contiguous
substring of the normalized text, but a text containing the separator breaks
it.  The text "a:b" is indexed for id "x" under the Substring strategy (only
6 composite keys, far below the limit of 10), yet querying the full
substring "a:b" returns nothing: the only in-range member "a:b:x:0" decodes
to the truncated id "b", whose display record does not exist. -/
theorem claim_C5_counterexample :
    List.IsInfix [97, 58, 98] (toLowerStr [97, 58, 98])
  ∧ (Provider.Index emptyState bIdX [97, 58, 98] bD1
      ⟨.MatchSubstring, 3, false⟩).tokenIndex.length ≤ 10
  ∧ (Provider.Query (Provider.Index emptyState bIdX [97, 58, 98] bD1
      ⟨.MatchSubstring, 3, false⟩) [97, 58, 98] ⟨10, false, .MatchSubstring, 3⟩).fst = [] := by
  refine ⟨⟨[], [], by decide⟩, by decide, by decide⟩

/-- C5 amended: for an entry indexed under the Substring strategy whose
normalized text and (non-empty) id are separator-free, querying any non-empty
contiguous substring of the normalized text - with a result limit at least
the size of the token index, so that neither the scan Count nor the
distinct-id cap is exhausted - returns the entry among the results. -/
theorem claim_C5_substring_query (s : RedisState) (id text display q textN sq : Str)
    (nsz : Int) (cs : Bool) (qopts : QueryOptions)
    (htextN : textN = if cs then text else toLowerStr text)
    (hsq : sq = if qopts.caseSensitive then q else toLowerStr q)
    (hstrat : qopts.matchStrategy = .MatchSubstring)
    (hid0 : id ≠ []) (hidsep : sepByte ∉ id) (htextsep : sepByte ∉ textN)
    (hq0 : sq ≠ []) (hinf : List.IsInfix sq textN)
    (hbig : (Provider.Index s id text display
      ⟨.MatchSubstring, nsz, cs⟩).tokenIndex.length ≤ qopts.maxResults) :
    (id, display) ∈ (Provider.Query (Provider.Index s id text display
      ⟨.MatchSubstring, nsz, cs⟩) q qopts).fst := by
  have hsqsep : sepByte ∉ sq := fun h => htextsep (hinf.subset h)
  obtain ⟨pre, suf, heq⟩ := hinf
  have hq1 : 1 ≤ sq.length := List.length_pos.mpr hq0
  have hlen : textN.length = pre.length + (sq.length + suf.length) := by
    rw [← heq]
    simp [List.length_append]
  -- the composite key written for the queried substring
  have hm0sub : createPositionalMember sq id pre.length ∈ allSubstringMembers textN id := by
    rw [mem_allSubstringMembers]
    refine ⟨pre.length, sq.length - 1, by omega, by omega, ?_⟩
    have hdrop : textN.drop pre.length = sq ++ suf := by
      rw [← heq, List.append_assoc]
      exact List.drop_left _ _
    have hstep : sq.length - 1 + 1 = sq.length := by omega
    rw [hdrop, hstep, List.take_left]
  have hm0idx : createPositionalMember sq id pre.length ∈
      (Provider.Index s id text display ⟨.MatchSubstring, nsz, cs⟩).tokenIndex := by
    rw [Index_tokenIndex, mem_foldl_zadd]
    right
    show createPositionalMember sq id pre.length ∈
      allSubstringMembers (if cs then text else toLowerStr text) id
    rw [← htextN]
    exact hm0sub
  -- the query reduces to the single base range scan
  have hQ : (Provider.Query (Provider.Index s id text display ⟨.MatchSubstring, nsz, cs⟩)
        q qopts).fst =
      fetchProviderResults (Provider.Index s id text display ⟨.MatchSubstring, nsz, cs⟩)
        (extractUniqueIDsFromResults
          (zrangebylex (Provider.Index s id text display ⟨.MatchSubstring, nsz, cs⟩).tokenIndex
            (createLexicographicStartKey sq) (createLexicographicEndKey sq)
            (qopts.maxResults * resultMultiplierForDuplicates)) qopts) := by
    subst hsq
    simp [Provider.Query, hstrat]
  rw [hQ]
  -- the scan keeps the whole filtered list: Count is at least the store size
  have hfl : ((Provider.Index s id text display ⟨.MatchSubstring, nsz, cs⟩).tokenIndex.filter
      (fun m => lexLe (createLexicographicStartKey sq) m &&
        lexLe m (createLexicographicEndKey sq))).length ≤
      qopts.maxResults * resultMultiplierForDuplicates := by
    have h1 := List.length_filter_le
      (fun m => lexLe (createLexicographicStartKey sq) m &&
        lexLe m (createLexicographicEndKey sq))
      (Provider.Index s id text display ⟨.MatchSubstring, nsz, cs⟩).tokenIndex
    have h2 : qopts.maxResults ≤ qopts.maxResults * resultMultiplierForDuplicates := by
      simp only [resultMultiplierForDuplicates]
      omega
    omega
  have hscan : zrangebylex
      (Provider.Index s id text display ⟨.MatchSubstring, nsz, cs⟩).tokenIndex
      (createLexicographicStartKey sq) (createLexicographicEndKey sq)
      (qopts.maxResults * resultMultiplierForDuplicates) =
      (Provider.Index s id text display ⟨.MatchSubstring, nsz, cs⟩).tokenIndex.filter
        (fun m => lexLe (createLexicographicStartKey sq) m &&
          lexLe m (createLexicographicEndKey sq)) := by
    rw [zrangebylex]
    exact List.take_of_length_le hfl
  -- the member is in the scan
  have hm0scan : createPositionalMember sq id pre.length ∈
      zrangebylex (Provider.Index s id text display ⟨.MatchSubstring, nsz, cs⟩).tokenIndex
        (createLexicographicStartKey sq) (createLexicographicEndKey sq)
        (qopts.maxResults * resultMultiplierForDuplicates) := by
    rw [hscan, List.mem_filter]
    refine ⟨hm0idx, ?_⟩
    rw [Bool.and_eq_true]
    constructor
    · exact lexLe_append _ _
    · show lexLe (sq ++ sepByte :: (id ++ sepByte :: natDecimal pre.length))
        (sq ++ [lexicographicMaxChar]) = true
      rw [show (lexicographicMaxChar : Nat) = 255 from rfl]
      exact lexLe_append_upper _ _ (by simp [sepByte])
  -- the member decodes to the id
  have hdec : extractIDFromMember (createPositionalMember sq id pre.length)
      (getMinPartsForStrategy qopts.matchStrategy) = id := by
    rw [hstrat]
    exact extractIDFromMember_positional _ _ hsqsep hidsep
      (by simp [getMinPartsForStrategy, minMemberPartsForPositionalID])
  -- the id survives extraction: the cap cannot fire before the whole scan is seen
  have hid_in : id ∈ extractUniqueIDsFromResults
      (zrangebylex (Provider.Index s id text display ⟨.MatchSubstring, nsz, cs⟩).tokenIndex
        (createLexicographicStartKey sq) (createLexicographicEndKey sq)
        (qopts.maxResults * resultMultiplierForDuplicates)) qopts := by
    rw [extractUniqueIDsFromResults]
    have hlens : (zrangebylex (Provider.Index s id text display
        ⟨.MatchSubstring, nsz, cs⟩).tokenIndex
        (createLexicographicStartKey sq) (createLexicographicEndKey sq)
        (qopts.maxResults * resultMultiplierForDuplicates)).length ≤ qopts.maxResults := by
      rw [hscan]
      have h1 := List.length_filter_le
        (fun m => lexLe (createLexicographicStartKey sq) m &&
          lexLe m (createLexicographicEndKey sq))
        (Provider.Index s id text display ⟨.MatchSubstring, nsz, cs⟩).tokenIndex
      omega
    have := extractUniqueIDsLoop_complete qopts.maxResults
      (getMinPartsForStrategy qopts.matchStrategy)
      (zrangebylex (Provider.Index s id text display ⟨.MatchSubstring, nsz, cs⟩).tokenIndex
        (createLexicographicStartKey sq) (createLexicographicEndKey sq)
        (qopts.maxResults * resultMultiplierForDuplicates))
      [] (by simpa using hlens)
      (createPositionalMember sq id pre.length) hm0scan (by rw [hdec]; exact hid0)
    rw [hdec] at this
    exact this
  exact mem_fetchProviderResults.mpr ⟨hid_in, by rw [Index_displayTbl]; exact hget_hset_self _ _ _⟩

/-- Witness for C5: indexing "ab" under the Substring strategy and querying
the inner substring "b" returns the entry. -/
theorem claim_C5_witness :
    (bIdX, bD1) ∈ (Provider.Query
      (Provider.Index emptyState bIdX bAB bD1 ⟨.MatchSubstring, 3, false⟩)
      [98] ⟨10, false, .MatchSubstring, 3⟩).fst :=
  claim_C5_substring_query emptyState bIdX bAB bD1 [98] bAB [98] 3 false
    ⟨10, false, .MatchSubstring, 3⟩ (by decide) (by decide) rfl (by decide) (by decide)
    (by decide) (by decide) ⟨[97], [], by decide⟩ (by decide)

/-- Witness for C6: text "ab" (case-insensitive), query "b" - not a prefix -
returns no results. -/
theorem claim_C6_witness :
    (Provider.Query (Provider.Index emptyState bIdX bAB bD1 ⟨.MatchPrefix, 3, false⟩)
      [98] ⟨10, false, .MatchPrefix, 3⟩).fst = [] :=
  (claim_C6_prefix_non_match bIdX bAB bD1 [98] bAB [98] 3 false
    ⟨10, false, .MatchPrefix, 3⟩ (by decide) (by decide) rfl (by decide) (by decide)).2

end Autocomplete
